import Mathlib

/-!
Verification of the numerical kernels of the green-lab-group1 repository:
dense matrix multiplication (`matmul_swig.cpp`), the Fourier transforms
(`fft_swig.cpp`, `fft_cy.pyx`), and the N-body integrator
(`nbody_swig.cpp`, `nbody_cy.pyx`).

Floating-point values are modelled abstractly: where a property is purely
structural (identical sequences of arithmetic operations) the development is
parametric in the binary operations `add`/`mul` and the constant `zero`, so a
result established there holds for any deterministic interpretation of these
operations, in particular for IEEE-754 binary64 arithmetic.  Where a property
is analytic (positivity of a divisor) the development instantiates the carrier
with the real numbers.  Transcendental helpers (`sqrt`, the complex
exponential) that have no computable counterpart on the model carrier are
passed as explicit function parameters.
-/

namespace GreenLab

/-! ## Dense matrix multiplication (src/Experiments/runner/swig/dense_matrix/matmul_swig.cpp)

A `Matrix2D` is a row-major `std::vector<std::vector<double>>`; it is modelled
as `List (List α)`.  Reading `M[i][j]` is modelled by `idx`, with the `zero`
element as the (never exercised in-bounds) fallback. -/

/-- Entry access `M[i][j]` for a row-major list-of-lists matrix. -/
def idx (zero : α) (M : List (List α)) (i j : Nat) : α :=
  (M.getD i []).getD j zero

/-- A freshly materialised `n × n` matrix whose `(i, j)` entry is `f i j`.
Models a `Matrix2D` every cell of which the C++ code writes exactly once. -/
def mkMat (n : Nat) (f : Nat → Nat → α) : List (List α) :=
  (List.range n).map (fun i => (List.range n).map (fun j => f i j))

/-- Model of `matmul_naive` (matmul_swig.cpp, lines 5-24): the direct triple
loop.  For each cell, `sum` starts at `0.0` and the loop
`for k: sum += A[i][k] * B[k][j]` runs over `k = 0, …, n-1` in increasing
order; the cell `C[i][j]` is written once with the final `sum`. -/
def matmul_naive (add mul : α → α → α) (zero : α) (A B : List (List α)) :
    List (List α) :=
  if A.isEmpty || B.isEmpty then []
  else
    let n := A.length
    mkMat n (fun i j =>
      (List.range n).foldl
        (fun sum k => add sum (mul (idx zero A i k) (idx zero B k j))) zero)

/-- Model of `matmul_transpose` (matmul_swig.cpp, lines 58-86): `B` is first
transposed into a fresh matrix `B_T` with `B_T[j][i] = B[i][j]`, then every
cell is the dot product of a row of `A` with a row of `B_T`, accumulated over
`k = 0, …, n-1` in increasing order exactly as in the naive variant. -/
def matmul_transpose (add mul : α → α → α) (zero : α) (A B : List (List α)) :
    List (List α) :=
  if A.isEmpty || B.isEmpty then []
  else
    let n := A.length
    let B_T := mkMat n (fun r c => idx zero B c r)
    mkMat n (fun i j =>
      (List.range n).foldl
        (fun sum k => add sum (mul (idx zero A i k) (idx zero B_T j k))) zero)

/-- The list of tile start offsets `0, bs, 2·bs, …` below `n`, i.e. the
values taken by the C++ loop `for (ii = 0; ii < n; ii += block_size)`.  The
guard `0 < bs` makes the definition total; the C++ loop does not terminate
for `block_size = 0` and the spec requires `block_size ≥ 1`. -/
def blockStartsAux (n bs s : Nat) : List Nat :=
  if _h : s < n ∧ 0 < bs then s :: blockStartsAux n bs (s + bs) else []
termination_by n - s
decreasing_by omega

/-- Tile starts of `matmul_blocked`, beginning at offset `0`. -/
def blockStarts (n bs : Nat) : List Nat := blockStartsAux n bs 0

/-- The index range of one clipped tile: `start, …, min (start + bs) n - 1`,
modelling `i_max = std::min(ii + block_size, n)` in `matmul_blocked`. -/
def tileRange (s bs n : Nat) : List Nat := List.range' s (min (s + bs) n - s)

/-- The state of the output matrix `C` of `matmul_blocked` while the tile
loops run: a total assignment of a value to every index pair. -/
def updC (C : Nat → Nat → α) (i j : Nat) (v : α) : Nat → Nat → α :=
  fun i2 j2 => if i2 = i ∧ j2 = j then v else C i2 j2

/-- The innermost accumulation of `matmul_blocked`:
`sum = C[i][j]; for (k = kk; k < k_max; k++) sum += A[i][k] * B[k][j]`. -/
def blockedInner (add mul : α → α → α) (zero : α) (A B : List (List α))
    (bs n kk i j : Nat) (c : α) : α :=
  (tileRange kk bs n).foldl
    (fun sum k => add sum (mul (idx zero A i k) (idx zero B k j))) c

/-- One pass of `matmul_blocked` over the output tile `(ii, jj)` for a fixed
`kk`: every cell `(i, j)` of the clipped tile is read, accumulated over
`k ∈ [kk, k_max)`, and written back. -/
def blockedTile (add mul : α → α → α) (zero : α) (A B : List (List α))
    (bs n ii jj kk : Nat) (C : Nat → Nat → α) : Nat → Nat → α :=
  (tileRange ii bs n).foldl
    (fun C1 i =>
      (tileRange jj bs n).foldl
        (fun C2 j => updC C2 i j (blockedInner add mul zero A B bs n kk i j (C2 i j)))
        C1)
    C

/-- Model of `matmul_blocked` (matmul_swig.cpp, lines 26-56): `C` starts as
the all-zero matrix, then the three tile loops `ii`, `jj`, `kk` run in that
nesting order, each stepping by `block_size`, and each `(ii, jj, kk)` triple
accumulates the clipped tile.  The final state of `C` is materialised. -/
def matmul_blocked (add mul : α → α → α) (zero : α) (A B : List (List α))
    (block_size : Nat) : List (List α) :=
  if A.isEmpty || B.isEmpty then []
  else
    let n := A.length
    let Cf :=
      (blockStarts n block_size).foldl
        (fun C ii =>
          (blockStarts n block_size).foldl
            (fun C jj =>
              (blockStarts n block_size).foldl
                (fun C kk => blockedTile add mul zero A B block_size n ii jj kk C)
                C)
            C)
        (fun _ _ => zero)
    mkMat n (fun i j => Cf i j)

/-! ### Generic list and state lemmas -/

theorem idx_mkMat (zero : α) (f : Nat → Nat → α) {n i j : Nat}
    (hi : i < n) (hj : j < n) : idx zero (mkMat n f) i j = f i j := by
  simp [idx, mkMat, List.getD_eq_getElem?_getD, List.getElem?_map,
    List.getElem?_range, hi, hj]

theorem mkMat_length (n : Nat) (f : Nat → Nat → α) : (mkMat n f).length = n := by
  simp [mkMat]

theorem mkMat_row_length (n : Nat) (f : Nat → Nat → α) :
    ∀ row ∈ mkMat n f, row.length = n := by
  simp [mkMat]

theorem mkMat_congr {n : Nat} {f g : Nat → Nat → α}
    (h : ∀ i < n, ∀ j < n, f i j = g i j) : mkMat n f = mkMat n g := by
  unfold mkMat
  refine List.map_congr_left (fun i hi => ?_)
  refine List.map_congr_left (fun j hj => ?_)
  exact h i (List.mem_range.mp hi) j (List.mem_range.mp hj)

theorem foldl_congr_fn {f g : α → β → α} :
    ∀ (l : List β) (a : α), (∀ s x, x ∈ l → f s x = g s x) →
      l.foldl f a = l.foldl g a
  | [], _, _ => rfl
  | x :: t, a, h => by
    simp only [List.foldl_cons]
    rw [h a x (List.mem_cons_self x t)]
    exact foldl_congr_fn t _ (fun s y hy => h s y (List.mem_cons_of_mem _ hy))

theorem foldl_read_const {σ γ β : Type _} {F : σ → β → σ} {read : σ → γ} :
    ∀ (l : List β), (∀ s b, b ∈ l → read (F s b) = read s) →
      ∀ s, read (l.foldl F s) = read s
  | [], _, _ => rfl
  | b :: t, h, s => by
    simp only [List.foldl_cons]
    rw [foldl_read_const t (fun s' b' hb' => h s' b' (List.mem_cons_of_mem _ hb')),
      h s b (List.mem_cons_self b t)]

theorem foldl_read_single {σ γ β : Type _} {F : σ → β → σ} {read : σ → γ}
    {g : γ → γ} {b0 : β} :
    ∀ (l : List β), l.Nodup → b0 ∈ l →
      (∀ s, read (F s b0) = g (read s)) →
      (∀ s b, b ∈ l → b ≠ b0 → read (F s b) = read s) →
      ∀ s, read (l.foldl F s) = g (read s)
  | [], _, hb, _, _, _ => absurd hb (List.not_mem_nil b0)
  | b :: t, hnd, hb0, hF, hother, s => by
    simp only [List.foldl_cons]
    rcases List.mem_cons.mp hb0 with heq | hmem
    · subst heq
      have hnob0 : b0 ∉ t := (List.nodup_cons.mp hnd).1
      rw [foldl_read_const t
        (fun s' b' hb' => hother s' b' (List.mem_cons_of_mem _ hb')
          (fun he => hnob0 (he ▸ hb'))) (F s b0)]
      exact hF s
    · have hne : b ≠ b0 := fun he => (List.nodup_cons.mp hnd).1 (he ▸ hmem)
      rw [foldl_read_single t (List.nodup_cons.mp hnd).2 hmem hF
        (fun s' b' hb' hne' => hother s' b' (List.mem_cons_of_mem _ hb') hne') (F s b),
        hother s b (List.mem_cons_self b t) hne]

/-! ### Tile bookkeeping for `matmul_blocked` -/

theorem updC_same (C : Nat → Nat → α) (i j : Nat) (v : α) :
    updC C i j v i j = v := by
  simp [updC]

theorem updC_other {i2 j2 i j : Nat} (h : ¬(i2 = i ∧ j2 = j))
    (C : Nat → Nat → α) (v : α) : updC C i j v i2 j2 = C i2 j2 := by
  simp only [updC, if_neg h]

theorem mem_tileRange {s bs n t : Nat} :
    t ∈ tileRange s bs n ↔ s ≤ t ∧ t < min (s + bs) n := by
  unfold tileRange
  rw [List.mem_range'_1]
  omega

theorem nodup_tileRange (s bs n : Nat) : (tileRange s bs n).Nodup :=
  List.nodup_range' _ _

theorem mem_blockStartsAux {n bs : Nat} (hbs : 0 < bs) (s t : Nat) :
    t ∈ blockStartsAux n bs s ↔ s ≤ t ∧ t < n ∧ (t - s) % bs = 0 := by
  rw [blockStartsAux]
  by_cases h : s < n ∧ 0 < bs
  · rw [dif_pos h, List.mem_cons, mem_blockStartsAux hbs (s + bs) t]
    constructor
    · rintro (rfl | ⟨h1, h2, h3⟩)
      · simp [h.1]
      · refine ⟨by omega, h2, ?_⟩
        have : t - s = (t - (s + bs)) + bs := by omega
        rw [this, Nat.add_mod_right, h3]
    · rintro ⟨h1, h2, h3⟩
      rcases Nat.eq_or_lt_of_le h1 with rfl | hlt
      · exact Or.inl rfl
      · obtain ⟨q, hq⟩ := Nat.dvd_of_mod_eq_zero h3
        have hq1 : 1 ≤ q := by
          rcases Nat.eq_zero_or_pos q with rfl | hpos
          · omega
          · exact hpos
        have hbsq : bs * 1 ≤ bs * q := Nat.mul_le_mul_left bs hq1
        have hge : s + bs ≤ t := by omega
        refine Or.inr ⟨hge, h2, ?_⟩
        have hts : t - (s + bs) + bs = t - s := by omega
        rw [← hts, Nat.add_mod_right] at h3
        exact h3
  · rw [dif_neg h]
    simp only [List.not_mem_nil, false_iff]
    omega
termination_by n - s
decreasing_by omega

theorem mem_blockStarts {n bs t : Nat} (hbs : 0 < bs) :
    t ∈ blockStarts n bs ↔ t < n ∧ t % bs = 0 := by
  unfold blockStarts
  rw [mem_blockStartsAux hbs]
  simp only [Nat.sub_zero]
  omega

theorem nodup_blockStartsAux {n bs : Nat} (hbs : 0 < bs) :
    ∀ s, (blockStartsAux n bs s).Nodup := by
  intro s
  rw [blockStartsAux]
  by_cases h : s < n ∧ 0 < bs
  · rw [dif_pos h]
    refine List.nodup_cons.mpr ⟨?_, nodup_blockStartsAux hbs (s + bs)⟩
    intro hmem
    have := (mem_blockStartsAux hbs (s + bs) s).mp hmem
    omega
  · rw [dif_neg h]
    exact List.nodup_nil
termination_by s => n - s
decreasing_by omega

theorem nodup_blockStarts {n bs : Nat} (hbs : 0 < bs) :
    (blockStarts n bs).Nodup := nodup_blockStartsAux hbs 0

/-- Coverage: the clipped tiles starting at the offsets produced by the tile
loop exactly partition the remaining index range, in order, with no padding. -/
theorem blockStartsAux_cover {n bs : Nat} (hbs : 0 < bs) (s : Nat) :
    (blockStartsAux n bs s).flatMap (fun t => tileRange t bs n) =
      List.range' s (n - s) := by
  rw [blockStartsAux]
  by_cases h : s < n ∧ 0 < bs
  · rw [dif_pos h]
    simp only [List.flatMap_cons]
    rw [blockStartsAux_cover hbs (s + bs)]
    unfold tileRange
    by_cases hend : s + bs < n
    · have hmin : min (s + bs) n = s + bs := by omega
      rw [hmin]
      have : s + bs - s = bs := by omega
      rw [this]
      have happ := List.range'_append s bs (n - (s + bs)) 1
      simp only [one_mul] at happ
      rw [happ]
      congr 1
      omega
    · have hrest : n - (s + bs) = 0 := by omega
      rw [hrest]
      simp only [List.range'_zero, List.append_nil]
      congr 1
      omega
  · rw [dif_neg h]
    have : n - s = 0 := by omega
    rw [this]
    rfl
termination_by n - s
decreasing_by omega

theorem blockStarts_cover {n bs : Nat} (hbs : 0 < bs) :
    (blockStarts n bs).flatMap (fun t => tileRange t bs n) = List.range n := by
  unfold blockStarts
  rw [blockStartsAux_cover hbs 0, List.range_eq_range', Nat.sub_zero]

theorem foldl_bind {f : α → β → α} :
    ∀ (l : List γ) (g : γ → List β) (a : α),
      (l.flatMap g).foldl f a = l.foldl (fun a x => (g x).foldl f a) a
  | [], _, _ => rfl
  | x :: t, g, a => by
    simp only [List.flatMap_cons, List.foldl_append, List.foldl_cons]
    exact foldl_bind t g _

theorem inner_fold_apply (add mul : α → α → α) (zero : α) (A B : List (List α))
    (bs n kk i0 : Nat) :
    ∀ (js : List Nat), js.Nodup → ∀ (C : Nat → Nat → α) (i j : Nat),
      (js.foldl
        (fun C2 j' =>
          updC C2 i0 j' (blockedInner add mul zero A B bs n kk i0 j' (C2 i0 j')))
        C) i j
        = if i = i0 ∧ j ∈ js then
            blockedInner add mul zero A B bs n kk i0 j (C i0 j)
          else C i j
  | [], _, C, i, j => by simp
  | j0 :: t, hnd, C, i, j => by
    simp only [List.foldl_cons]
    rw [inner_fold_apply add mul zero A B bs n kk i0 t (List.nodup_cons.mp hnd).2]
    by_cases hij : i = i0 ∧ j ∈ t
    · rw [if_pos hij, if_pos ⟨hij.1, List.mem_cons_of_mem _ hij.2⟩]
      have hjne : ¬(i0 = i0 ∧ j = j0) := fun he =>
        (List.nodup_cons.mp hnd).1 (he.2 ▸ hij.2)
      rw [updC_other hjne]
    · rw [if_neg hij]
      by_cases hj0 : i = i0 ∧ j = j0
      · rw [if_pos ⟨hj0.1, hj0.2 ▸ List.mem_cons_self j0 t⟩]
        rcases hj0 with ⟨rfl, rfl⟩
        rw [updC_same]
      · rw [updC_other hj0, if_neg ?_]
        rintro ⟨rfl, hmem⟩
        rcases List.mem_cons.mp hmem with rfl | hmem2
        · exact hj0 ⟨rfl, rfl⟩
        · exact hij ⟨rfl, hmem2⟩

theorem blockedTile_apply (add mul : α → α → α) (zero : α) (A B : List (List α))
    (bs n ii jj kk : Nat) (C : Nat → Nat → α) (i j : Nat) :
    blockedTile add mul zero A B bs n ii jj kk C i j
      = if i ∈ tileRange ii bs n ∧ j ∈ tileRange jj bs n then
          blockedInner add mul zero A B bs n kk i j (C i j)
        else C i j := by
  unfold blockedTile
  have main :
      ∀ (is : List Nat), is.Nodup → ∀ (C : Nat → Nat → α),
        (is.foldl
          (fun C1 i' =>
            (tileRange jj bs n).foldl
              (fun C2 j' =>
                updC C2 i' j'
                  (blockedInner add mul zero A B bs n kk i' j' (C2 i' j')))
              C1)
          C) i j
          = if i ∈ is ∧ j ∈ tileRange jj bs n then
              blockedInner add mul zero A B bs n kk i j (C i j)
            else C i j := by
    intro is
    induction is with
    | nil => intro _ C; simp
    | cons i0 t ih =>
      intro hnd C
      simp only [List.foldl_cons]
      rw [ih (List.nodup_cons.mp hnd).2]
      have h1 : ∀ a b : Nat,
          ((tileRange jj bs n).foldl
            (fun C2 j' =>
              updC C2 i0 j' (blockedInner add mul zero A B bs n kk i0 j' (C2 i0 j')))
            C) a b
            = if a = i0 ∧ b ∈ tileRange jj bs n then
                blockedInner add mul zero A B bs n kk i0 b (C i0 b)
              else C a b := fun a b =>
        inner_fold_apply add mul zero A B bs n kk i0 (tileRange jj bs n)
          (nodup_tileRange jj bs n) C a b
      by_cases hit : i ∈ t ∧ j ∈ tileRange jj bs n
      · rw [if_pos hit, h1 i j]
        have hii0 : i ≠ i0 := fun he => (List.nodup_cons.mp hnd).1 (he ▸ hit.1)
        rw [if_neg (fun hc => hii0 hc.1),
          if_pos ⟨List.mem_cons_of_mem _ hit.1, hit.2⟩]
      · rw [if_neg hit, h1 i j]
        by_cases hi0 : i = i0 ∧ j ∈ tileRange jj bs n
        · rw [if_pos hi0,
            if_pos ⟨List.mem_cons.mpr (Or.inl hi0.1), hi0.2⟩, hi0.1]
        · rw [if_neg hi0, if_neg ?_]
          rintro ⟨hmem, hj⟩
          rcases List.mem_cons.mp hmem with rfl | hmem2
          · exact hi0 ⟨rfl, hj⟩
          · exact hit ⟨hmem2, hj⟩
  exact main (tileRange ii bs n) (nodup_tileRange ii bs n) C

theorem kkfold_in (add mul : α → α → α) (zero : α) (A B : List (List α))
    (bs n ii jj : Nat) {i j : Nat}
    (hi : i ∈ tileRange ii bs n) (hj : j ∈ tileRange jj bs n) :
    ∀ (kks : List Nat) (C : Nat → Nat → α),
      (kks.foldl (fun C kk => blockedTile add mul zero A B bs n ii jj kk C) C) i j
        = kks.foldl (fun c kk => blockedInner add mul zero A B bs n kk i j c) (C i j) := by
  intro kks
  induction kks with
  | nil => intro C; rfl
  | cons kk0 t ih =>
    intro C
    simp only [List.foldl_cons]
    rw [ih]
    congr 1
    rw [blockedTile_apply, if_pos ⟨hi, hj⟩]

theorem kkfold_out (add mul : α → α → α) (zero : α) (A B : List (List α))
    (bs n ii jj : Nat) {i j : Nat}
    (h : ¬(i ∈ tileRange ii bs n ∧ j ∈ tileRange jj bs n))
    (kks : List Nat) (C : Nat → Nat → α) :
    (kks.foldl (fun C kk => blockedTile add mul zero A B bs n ii jj kk C) C) i j
      = C i j := by
  refine @foldl_read_const (Nat → Nat → α) α Nat
    (fun C kk => blockedTile add mul zero A B bs n ii jj kk C) (fun C => C i j)
    kks (fun s b _ => ?_) C
  show blockedTile add mul zero A B bs n ii jj b s i j = s i j
  rw [blockedTile_apply, if_neg h]

/-- The start offset of the tile containing index `t` (proof bookkeeping). -/
def tileOf (bs t : Nat) : Nat := bs * (t / bs)

theorem tileOf_mem_blockStarts {n bs t : Nat} (hbs : 0 < bs) (ht : t < n) :
    tileOf bs t ∈ blockStarts n bs := by
  rw [mem_blockStarts hbs]
  have hdm := Nat.div_add_mod t bs
  refine ⟨by unfold tileOf; omega, ?_⟩
  simp [tileOf, Nat.mul_mod_right]

theorem mem_tileRange_tileOf {n bs t : Nat} (hbs : 0 < bs) (ht : t < n) :
    t ∈ tileRange (tileOf bs t) bs n := by
  rw [mem_tileRange]
  have hdm := Nat.div_add_mod t bs
  have hmod := Nat.mod_lt t hbs
  unfold tileOf
  omega

theorem tileRange_unique {n bs t jj : Nat} (hbs : 0 < bs)
    (hjj : jj ∈ blockStarts n bs) (hmem : t ∈ tileRange jj bs n) :
    jj = tileOf bs t := by
  rw [mem_blockStarts hbs] at hjj
  rw [mem_tileRange] at hmem
  obtain ⟨q, hq⟩ := Nat.dvd_of_mod_eq_zero hjj.2
  have hqt : q * bs ≤ t := by rw [Nat.mul_comm]; omega
  have h1 : q ≤ t / bs := (Nat.le_div_iff_mul_le hbs).mpr hqt
  have htq : t < (q + 1) * bs := by rw [Nat.add_mul, Nat.one_mul, Nat.mul_comm]; omega
  have h2 : t / bs < q + 1 := (Nat.div_lt_iff_lt_mul hbs).mpr htq
  have h3 : t / bs = q := by omega
  rw [hq]
  unfold tileOf
  rw [h3]

theorem jjfold_apply (add mul : α → α → α) (zero : α) (A B : List (List α))
    (bs n ii : Nat) (hbs : 0 < bs) {i j : Nat} (hj : j < n)
    (C : Nat → Nat → α) :
    ((blockStarts n bs).foldl
      (fun C jj =>
        (blockStarts n bs).foldl
          (fun C kk => blockedTile add mul zero A B bs n ii jj kk C) C)
      C) i j
      = if i ∈ tileRange ii bs n then
          (blockStarts n bs).foldl
            (fun c kk => blockedInner add mul zero A B bs n kk i j c) (C i j)
        else C i j := by
  by_cases hi : i ∈ tileRange ii bs n
  · rw [if_pos hi]
    refine @foldl_read_single (Nat → Nat → α) α Nat
      (fun C jj =>
        (blockStarts n bs).foldl
          (fun C kk => blockedTile add mul zero A B bs n ii jj kk C) C)
      (fun C => C i j)
      (fun c =>
        (blockStarts n bs).foldl
          (fun c kk => blockedInner add mul zero A B bs n kk i j c) c)
      (tileOf bs j)
      (blockStarts n bs) (nodup_blockStarts hbs) (tileOf_mem_blockStarts hbs hj)
      (fun s => ?_) (fun s b hb hne => ?_) C
    · exact kkfold_in add mul zero A B bs n ii (tileOf bs j) hi
        (mem_tileRange_tileOf hbs hj) (blockStarts n bs) s
    · show ((blockStarts n bs).foldl
        (fun C kk => blockedTile add mul zero A B bs n ii b kk C) s) i j = s i j
      refine kkfold_out add mul zero A B bs n ii b ?_ (blockStarts n bs) s
      rintro ⟨_, hjb⟩
      exact hne (tileRange_unique hbs hb hjb)
  · rw [if_neg hi]
    refine @foldl_read_const (Nat → Nat → α) α Nat
      (fun C jj =>
        (blockStarts n bs).foldl
          (fun C kk => blockedTile add mul zero A B bs n ii jj kk C) C)
      (fun C => C i j)
      (blockStarts n bs) (fun s b _ => ?_) C
    show ((blockStarts n bs).foldl
      (fun C kk => blockedTile add mul zero A B bs n ii b kk C) s) i j = s i j
    exact kkfold_out add mul zero A B bs n ii b (fun hc => hi hc.1)
      (blockStarts n bs) s

theorem blocked_entry (add mul : α → α → α) (zero : α) (A B : List (List α))
    (bs n : Nat) (hbs : 0 < bs) {i j : Nat} (hi : i < n) (hj : j < n) :
    ((blockStarts n bs).foldl
      (fun C ii =>
        (blockStarts n bs).foldl
          (fun C jj =>
            (blockStarts n bs).foldl
              (fun C kk => blockedTile add mul zero A B bs n ii jj kk C) C)
          C)
      (fun _ _ => zero)) i j
      = (List.range n).foldl
          (fun sum k => add sum (mul (idx zero A i k) (idx zero B k j))) zero := by
  have hstep :
      ((blockStarts n bs).foldl
        (fun C ii =>
          (blockStarts n bs).foldl
            (fun C jj =>
              (blockStarts n bs).foldl
                (fun C kk => blockedTile add mul zero A B bs n ii jj kk C) C)
            C)
        (fun _ _ => zero)) i j
        = (blockStarts n bs).foldl
            (fun c kk => blockedInner add mul zero A B bs n kk i j c) zero := by
    refine @foldl_read_single (Nat → Nat → α) α Nat
      (fun C ii =>
        (blockStarts n bs).foldl
          (fun C jj =>
            (blockStarts n bs).foldl
              (fun C kk => blockedTile add mul zero A B bs n ii jj kk C) C)
          C)
      (fun C => C i j)
      (fun c =>
        (blockStarts n bs).foldl
          (fun c kk => blockedInner add mul zero A B bs n kk i j c) c)
      (tileOf bs i)
      (blockStarts n bs) (nodup_blockStarts hbs) (tileOf_mem_blockStarts hbs hi)
      (fun s => ?_) (fun s b hb hne => ?_) (fun _ _ => zero)
    · show ((blockStarts n bs).foldl
        (fun C jj =>
          (blockStarts n bs).foldl
            (fun C kk => blockedTile add mul zero A B bs n (tileOf bs i) jj kk C) C)
        s) i j
          = (blockStarts n bs).foldl
              (fun c kk => blockedInner add mul zero A B bs n kk i j c) (s i j)
      rw [jjfold_apply add mul zero A B bs n (tileOf bs i) hbs hj s,
        if_pos (mem_tileRange_tileOf hbs hi)]
    · show ((blockStarts n bs).foldl
        (fun C jj =>
          (blockStarts n bs).foldl
            (fun C kk => blockedTile add mul zero A B bs n b jj kk C) C)
        s) i j = s i j
      rw [jjfold_apply add mul zero A B bs n b hbs hj s, if_neg ?_]
      intro hmem
      exact hne (tileRange_unique hbs hb hmem)
  rw [hstep]
  simp only [blockedInner]
  rw [← foldl_bind (blockStarts n bs) (fun kk => tileRange kk bs n) zero,
    blockStarts_cover hbs]

theorem matmul_blocked_eq_naive (add mul : α → α → α) (zero : α)
    (A B : List (List α)) {bs : Nat} (hbs : 1 ≤ bs) :
    matmul_blocked add mul zero A B bs = matmul_naive add mul zero A B := by
  unfold matmul_blocked matmul_naive
  by_cases hemp : A.isEmpty || B.isEmpty
  · rw [if_pos hemp, if_pos hemp]
  · rw [if_neg hemp, if_neg hemp]
    refine mkMat_congr (fun i hi j hj => ?_)
    exact blocked_entry add mul zero A B bs A.length hbs hi hj

theorem matmul_transpose_eq_naive (add mul : α → α → α) (zero : α)
    (A B : List (List α)) :
    matmul_transpose add mul zero A B = matmul_naive add mul zero A B := by
  unfold matmul_transpose matmul_naive
  by_cases hemp : A.isEmpty || B.isEmpty
  · rw [if_pos hemp, if_pos hemp]
  · rw [if_neg hemp, if_neg hemp]
    refine mkMat_congr (fun i hi j hj => ?_)
    refine foldl_congr_fn _ _ (fun s k hk => ?_)
    rw [idx_mkMat _ _ hj (List.mem_range.mp hk)]

/-- C1: for every pair of square matrices over 64-bit floats and every
`block_size ≥ 1`, the three multiplication strategies produce bit-identical
results, entry for entry, with no floating-point tolerance needed.  The
statement is parametric in the addition and multiplication operations, which
are not assumed associative or commutative; in particular it holds when
`add`/`mul` are IEEE-754 binary64 addition and multiplication, where equality
of the results of identical operation sequences is bit-identity.  (It holds
for all list-of-list inputs, hence in particular for square `N × N` ones.) -/
theorem C1_matmul_strategies_bit_identical (add mul : α → α → α) (zero : α)
    (A B : List (List α)) (block_size : Nat) (hbs : 1 ≤ block_size) :
    matmul_naive add mul zero A B = matmul_blocked add mul zero A B block_size ∧
    matmul_naive add mul zero A B = matmul_transpose add mul zero A B :=
  ⟨(matmul_blocked_eq_naive add mul zero A B hbs).symm,
   (matmul_transpose_eq_naive add mul zero A B).symm⟩

/-- Witness for C1 at a concrete input. -/
theorem C1_matmul_strategies_bit_identical_witness :
    1 ≤ 2 ∧
    (matmul_naive (· + ·) (· * ·) (0 : ℚ) [[1, 2], [3, 4]] [[5, 6], [7, 8]]
        = matmul_blocked (· + ·) (· * ·) (0 : ℚ) [[1, 2], [3, 4]] [[5, 6], [7, 8]] 2 ∧
      matmul_naive (· + ·) (· * ·) (0 : ℚ) [[1, 2], [3, 4]] [[5, 6], [7, 8]]
        = matmul_transpose (· + ·) (· * ·) (0 : ℚ) [[1, 2], [3, 4]] [[5, 6], [7, 8]]) :=
  ⟨by decide,
   C1_matmul_strategies_bit_identical (· + ·) (· * ·) (0 : ℚ)
     [[1, 2], [3, 4]] [[5, 6], [7, 8]] 2 (by decide)⟩

theorem foldl_add_map_sum {M : Type _} [AddCommMonoid M] (g : Nat → M) :
    ∀ (l : List Nat) (a : M), l.foldl (fun s k => s + g k) a = a + (l.map g).sum
  | [], a => by simp
  | x :: t, a => by
    simp only [List.foldl_cons, List.map_cons, List.sum_cons]
    rw [foldl_add_map_sum g t (a + g x), add_assoc]

theorem sum_map_range {M : Type _} [AddCommMonoid M] (g : Nat → M) (n : Nat) :
    ((List.range n).map g).sum = ∑ k ∈ Finset.range n, g k := by
  induction n with
  | zero => simp
  | succ m ih =>
    rw [List.range_succ, List.map_append, List.sum_append, Finset.sum_range_succ,
      ih]
    simp

/-- C4: `matmul_naive` returns an `N × N` matrix whose `(i, j)` entry is the
sum over `k` of `A[i][k] * B[k][j]` (the definition accumulates it left to
right over `k = 0, …, N-1` starting from `0`), and an empty input yields an
empty result rather than an error. -/
theorem C4_matmul_naive_functional (A B : List (List ℝ)) (h : A.length = B.length) :
    (A = [] → matmul_naive (· + ·) (· * ·) (0 : ℝ) A B = []) ∧
    (matmul_naive (· + ·) (· * ·) (0 : ℝ) A B).length = A.length ∧
    (∀ row ∈ matmul_naive (· + ·) (· * ·) (0 : ℝ) A B, row.length = A.length) ∧
    ∀ i < A.length, ∀ j < A.length,
      idx 0 (matmul_naive (· + ·) (· * ·) (0 : ℝ) A B) i j
        = ∑ k ∈ Finset.range A.length, idx 0 A i k * idx 0 B k j := by
  by_cases hA : A.isEmpty
  · have hA' : A = [] := List.isEmpty_iff.mp hA
    subst hA'
    have hB' : B = [] := List.eq_nil_of_length_eq_zero h.symm
    subst hB'
    exact ⟨fun _ => rfl, rfl, fun row hrow => absurd hrow (List.not_mem_nil row),
      fun i hi => absurd hi (Nat.not_lt_zero i)⟩
  · have hB : ¬B.isEmpty := by
      intro hB
      exact hA (by
        rw [List.isEmpty_iff] at hB ⊢
        exact List.eq_nil_of_length_eq_zero (by rw [h, hB]; rfl))
    have hguard : ¬(A.isEmpty || B.isEmpty) = true := by
      simp [hA, hB]
    constructor
    · intro hA0
      exact absurd (by simp [hA0] : A.isEmpty = true) hA
    · unfold matmul_naive
      rw [if_neg hguard]
      refine ⟨mkMat_length _ _, mkMat_row_length _ _, ?_⟩
      intro i hi j hj
      rw [idx_mkMat _ _ hi hj, foldl_add_map_sum, zero_add, sum_map_range]

/-- Witness for C4 at a concrete input. -/
theorem C4_matmul_naive_functional_witness :
    ([[1, 2], [3, 4]] : List (List ℝ)).length = ([[5, 6], [7, 8]] : List (List ℝ)).length ∧
    ((([[1, 2], [3, 4]] : List (List ℝ)) = [] →
        matmul_naive (· + ·) (· * ·) (0 : ℝ) [[1, 2], [3, 4]] [[5, 6], [7, 8]] = []) ∧
      (matmul_naive (· + ·) (· * ·) (0 : ℝ) [[1, 2], [3, 4]] [[5, 6], [7, 8]]).length
        = ([[1, 2], [3, 4]] : List (List ℝ)).length ∧
      (∀ row ∈ matmul_naive (· + ·) (· * ·) (0 : ℝ) [[1, 2], [3, 4]] [[5, 6], [7, 8]],
          row.length = ([[1, 2], [3, 4]] : List (List ℝ)).length) ∧
      ∀ i < ([[1, 2], [3, 4]] : List (List ℝ)).length,
        ∀ j < ([[1, 2], [3, 4]] : List (List ℝ)).length,
          idx 0 (matmul_naive (· + ·) (· * ·) (0 : ℝ) [[1, 2], [3, 4]] [[5, 6], [7, 8]]) i j
            = ∑ k ∈ Finset.range ([[1, 2], [3, 4]] : List (List ℝ)).length,
                idx 0 ([[1, 2], [3, 4]] : List (List ℝ)) i k
                  * idx 0 ([[5, 6], [7, 8]] : List (List ℝ)) k j) :=
  ⟨rfl, C4_matmul_naive_functional [[1, 2], [3, 4]] [[5, 6], [7, 8]] rfl⟩

/-- C8: for every `block_size ≥ 1`, `matmul_blocked` (a total function in
this model) returns an `N × N` matrix; its tile loops process, for each tile
start `s`, exactly the clipped index range `[s, min (s + block_size) N)`
(this is the definition of `tileRange`), and the clipped tiles exactly cover
`0, …, N-1` in order with no padding. -/
theorem C8_matmul_blocked_shape_clipping (add mul : α → α → α) (zero : α)
    (A B : List (List α)) (block_size : Nat)
    (hbs : 1 ≤ block_size) (h : A.length = B.length) :
    (matmul_blocked add mul zero A B block_size).length = A.length ∧
    (∀ row ∈ matmul_blocked add mul zero A B block_size, row.length = A.length) ∧
    (blockStarts A.length block_size).flatMap
        (fun s => tileRange s block_size A.length) = List.range A.length := by
  refine ⟨?_, ?_, blockStarts_cover hbs⟩
  · by_cases hemp : A.isEmpty || B.isEmpty
    · unfold matmul_blocked
      rw [if_pos hemp]
      rcases Bool.or_eq_true_iff.mp hemp with hA | hB
      · rw [List.isEmpty_iff.mp hA]
      · rw [h, List.isEmpty_iff.mp hB]
    · unfold matmul_blocked
      rw [if_neg hemp]
      exact mkMat_length _ _
  · by_cases hemp : A.isEmpty || B.isEmpty
    · unfold matmul_blocked
      rw [if_pos hemp]
      exact fun row hrow => absurd hrow (List.not_mem_nil row)
    · unfold matmul_blocked
      rw [if_neg hemp]
      exact mkMat_row_length _ _

/-- Witness for C8 at a concrete input (a 3×3 matrix with block size 2, so
that the last tile really is clipped). -/
theorem C8_matmul_blocked_shape_clipping_witness :
    1 ≤ 2 ∧
    ([[1, 0, 0], [0, 1, 0], [0, 0, 1]] : List (List ℚ)).length
      = ([[1, 2, 3], [4, 5, 6], [7, 8, 9]] : List (List ℚ)).length ∧
    ((matmul_blocked (· + ·) (· * ·) (0 : ℚ)
        [[1, 0, 0], [0, 1, 0], [0, 0, 1]] [[1, 2, 3], [4, 5, 6], [7, 8, 9]] 2).length
      = ([[1, 0, 0], [0, 1, 0], [0, 0, 1]] : List (List ℚ)).length ∧
    (∀ row ∈ matmul_blocked (· + ·) (· * ·) (0 : ℚ)
        [[1, 0, 0], [0, 1, 0], [0, 0, 1]] [[1, 2, 3], [4, 5, 6], [7, 8, 9]] 2,
        row.length = ([[1, 0, 0], [0, 1, 0], [0, 0, 1]] : List (List ℚ)).length) ∧
    (blockStarts ([[1, 0, 0], [0, 1, 0], [0, 0, 1]] : List (List ℚ)).length 2).flatMap
        (fun s => tileRange s 2 ([[1, 0, 0], [0, 1, 0], [0, 0, 1]] : List (List ℚ)).length)
      = List.range ([[1, 0, 0], [0, 1, 0], [0, 0, 1]] : List (List ℚ)).length) :=
  ⟨by decide, rfl,
   C8_matmul_blocked_shape_clipping (· + ·) (· * ·) (0 : ℚ)
     [[1, 0, 0], [0, 1, 0], [0, 0, 1]] [[1, 2, 3], [4, 5, 6], [7, 8, 9]] 2
     (by decide) rfl⟩

/-! ## N-body integrator (nbody_swig.cpp / nbody_cy.pyx)

The two sources implement the same step with identical loop bodies; the C++
version copies the input vector and returns the copy, the Cython version
writes the updated `x`, `y`, `vx`, `vy` back into the dictionaries of the
input list and returns that same list.  `sqrt` is passed as a parameter: on
the model carrier (an arbitrary field) the floating-point square root has no
canonical computable counterpart, and no claim here depends on its values
except C5, which instantiates it with `Real.sqrt`. -/

/-- A point mass (struct `Body` of nbody_swig.h / nbody_cy.pyx): 2D position,
2D velocity, scalar mass. -/
structure Body (α : Type _) where
  x : α
  y : α
  vx : α
  vy : α
  m : α
deriving DecidableEq

/-- The all-zero body, used as the (never exercised in-bounds) list access
default. -/
def body0 {α : Type _} [Zero α] : Body α := ⟨0, 0, 0, 0, 0⟩

/-- The cube of the softened distance between two bodies:
`dist_soft = sqrt(dx*dx + dy*dy + softening)` and the divisor
`dist_soft * dist_soft * dist_soft` of the acceleration loop, shared verbatim
by `nbody_step_update` (nbody_swig.cpp, lines 51-61) and
`nbody_step_update_cy` (nbody_cy.pyx, lines 94-103). -/
def softDistCube [Field α] (sqrt : α → α) (softening : α) (bi bj : Body α) : α :=
  let dx := bj.x - bi.x
  let dy := bj.y - bi.y
  let dist_sq := dx * dx + dy * dy
  let dist_soft := sqrt (dist_sq + softening)
  dist_soft * dist_soft * dist_soft

/-- One pairwise acceleration contribution `(dx*ff, dy*ff)` with
`ff = G * m_j * (1 / dist_soft³)`, as computed in the inner loop of both
implementations. -/
def accelPair [Field α] (sqrt : α → α) (G softening : α) (bi bj : Body α) :
    α × α :=
  let dx := bj.x - bi.x
  let dy := bj.y - bi.y
  let inv_dist_cube := 1 / softDistCube sqrt softening bi bj
  let force_factor := G * bj.m * inv_dist_cube
  (dx * force_factor, dy * force_factor)

/-- The acceleration `(ax[i], ay[i])` accumulated by the O(N²) loop over
`j = 0, …, N-1` with `if (i == j) continue`, in both implementations. -/
def accelOf [Field α] (sqrt : α → α) (G softening : α)
    (bodies : List (Body α)) (i : Nat) : α × α :=
  (List.range bodies.length).foldl
    (fun acc j =>
      if i = j then acc
      else
        let p := accelPair sqrt G softening (bodies.getD i body0)
          (bodies.getD j body0)
        (acc.1 + p.1, acc.2 + p.2))
    (0, 0)

/-- Model of `nbody_step_update` (nbody_swig.cpp, lines 32-79): accelerations
are computed from the original body set; then, per body, velocity is updated
first (`vx += ax*dt`) and position second using the already-updated velocity
(`x += vx*dt`).  A fresh updated vector is returned; the input, taken by
const reference and copied, is untouched. -/
def nbody_step_update [Field α] (sqrt : α → α) (bodies : List (Body α))
    (dt G softening : α) : List (Body α) :=
  (List.range bodies.length).map (fun i =>
    let b := bodies.getD i body0
    let a := accelOf sqrt G softening bodies i
    let vx := b.vx + a.1 * dt
    let vy := b.vy + a.2 * dt
    { x := b.x + vx * dt, y := b.y + vy * dt, vx := vx, vy := vy, m := b.m })

/-- Model of `nbody_step_update_cy` (nbody_cy.pyx, lines 38-130): the same
computation on the C array `body_array`, after which the updated `x`, `y`,
`vx`, `vy` — but not `m` — are written back into the dictionaries of the
input list, and that same list object is returned.  The value of this
function is therefore both the returned list and the content of the caller's
input list after the call (the mutated state of the argument). -/
def nbody_step_update_cy [Field α] (sqrt : α → α) (bodies : List (Body α))
    (dt G softening : α) : List (Body α) :=
  (List.range bodies.length).map (fun i =>
    let orig := bodies.getD i body0
    let a := accelOf sqrt G softening bodies i
    let vx := orig.vx + a.1 * dt
    let vy := orig.vy + a.2 * dt
    { orig with
        x := orig.x + vx * dt, y := orig.y + vy * dt, vx := vx, vy := vy })

/-- The list of every divisor `dist_soft³` the acceleration loop divides by:
one per ordered pair `(i, j)` with `i ≠ j`, in loop order. -/
def nbodyDivisors [Field α] (sqrt : α → α) (softening : α)
    (bodies : List (Body α)) : List α :=
  (List.range bodies.length).flatMap (fun i =>
    (List.range bodies.length).filterMap (fun j =>
      if i = j then none
      else some (softDistCube sqrt softening (bodies.getD i body0)
        (bodies.getD j body0))))

/-! ### N-body lemmas -/

theorem getD_map_range {β : Type _} (f : Nat → β) {n i : Nat} (hi : i < n)
    (d : β) : (((List.range n).map f).getD i d) = f i := by
  rw [List.getD_eq_getElem?_getD, List.getElem?_map, List.getElem?_range hi]
  rfl

theorem map_range_getD {γ β : Type _} (l : List γ) (d : γ) (f : γ → β) :
    (List.range l.length).map (fun i => f (l.getD i d)) = l.map f := by
  refine List.ext_getElem (by simp) (fun i h1 h2 => ?_)
  rw [List.getElem_map, List.getElem_range, List.getElem_map]
  rw [List.getD_eq_getElem l d (by simpa using h1)]

theorem nbody_cy_eq_swig [Field α] (sqrt : α → α) (bodies : List (Body α))
    (dt G softening : α) :
    nbody_step_update_cy sqrt bodies dt G softening
      = nbody_step_update sqrt bodies dt G softening := rfl

theorem nbody_step_length [Field α] (sqrt : α → α) (bodies : List (Body α))
    (dt G softening : α) :
    (nbody_step_update sqrt bodies dt G softening).length = bodies.length := by
  simp [nbody_step_update]

theorem nbody_step_mass [Field α] (sqrt : α → α) (bodies : List (Body α))
    (dt G softening : α) :
    (nbody_step_update sqrt bodies dt G softening).map Body.m
      = bodies.map Body.m := by
  unfold nbody_step_update
  rw [List.map_map]
  exact map_range_getD bodies body0 Body.m

theorem foldl_prod_split {M : Type _} (g1 g2 : Nat → M) (add : M → M → M) :
    ∀ (l : List Nat) (p : M × M),
      l.foldl (fun acc j => (add acc.1 (g1 j), add acc.2 (g2 j))) p
        = (l.foldl (fun s j => add s (g1 j)) p.1,
           l.foldl (fun s j => add s (g2 j)) p.2)
  | [], p => Prod.mk.eta.symm
  | j0 :: t, p => by
    simp only [List.foldl_cons]
    exact foldl_prod_split g1 g2 add t _

theorem sum_ite_erase {M : Type _} [AddCommMonoid M] (n i : Nat) (f : Nat → M) :
    (∑ j ∈ Finset.range n, if i = j then 0 else f j)
      = ∑ j ∈ (Finset.range n).erase i, f j := by
  rw [← Finset.filter_ne' (Finset.range n) i, Finset.sum_filter]
  refine Finset.sum_congr rfl (fun j _ => ?_)
  by_cases h : i = j
  · simp [h]
  · simp [h, Ne.symm h]

theorem accelOf_eq_sum [Field α] (sqrt : α → α) (G softening : α)
    (bodies : List (Body α)) (i : Nat) :
    accelOf sqrt G softening bodies i
      = (∑ j ∈ (Finset.range bodies.length).erase i,
           (accelPair sqrt G softening (bodies.getD i body0)
             (bodies.getD j body0)).1,
         ∑ j ∈ (Finset.range bodies.length).erase i,
           (accelPair sqrt G softening (bodies.getD i body0)
             (bodies.getD j body0)).2) := by
  unfold accelOf
  rw [@foldl_congr_fn (α × α) Nat
    (fun acc j =>
      if i = j then acc
      else
        let p := accelPair sqrt G softening (bodies.getD i body0)
          (bodies.getD j body0)
        (acc.1 + p.1, acc.2 + p.2))
    (fun acc j =>
      ((acc.1 + if i = j then 0 else
          (accelPair sqrt G softening (bodies.getD i body0)
            (bodies.getD j body0)).1),
       (acc.2 + if i = j then 0 else
          (accelPair sqrt G softening (bodies.getD i body0)
            (bodies.getD j body0)).2)))
    (List.range bodies.length) ((0 : α), (0 : α))
    (fun s x _ => by by_cases h : i = x <;> simp [h])]
  rw [foldl_prod_split
    (fun j => if i = j then 0 else
      (accelPair sqrt G softening (bodies.getD i body0)
        (bodies.getD j body0)).1)
    (fun j => if i = j then 0 else
      (accelPair sqrt G softening (bodies.getD i body0)
        (bodies.getD j body0)).2)
    (· + ·) (List.range bodies.length) ((0 : α), (0 : α))]
  refine Prod.ext ?_ ?_ <;>
    · show List.foldl _ (0 : α) _ = _
      rw [foldl_add_map_sum, zero_add, sum_map_range, sum_ite_erase]

theorem nbody_step_getD [Field α] (sqrt : α → α) (bodies : List (Body α))
    (dt G softening : α) {i : Nat} (hi : i < bodies.length) :
    (nbody_step_update sqrt bodies dt G softening).getD i body0
      = { x := (bodies.getD i body0).x
            + ((bodies.getD i body0).vx
              + (accelOf sqrt G softening bodies i).1 * dt) * dt,
          y := (bodies.getD i body0).y
            + ((bodies.getD i body0).vy
              + (accelOf sqrt G softening bodies i).2 * dt) * dt,
          vx := (bodies.getD i body0).vx
            + (accelOf sqrt G softening bodies i).1 * dt,
          vy := (bodies.getD i body0).vy
            + (accelOf sqrt G softening bodies i).2 * dt,
          m := (bodies.getD i body0).m } := by
  unfold nbody_step_update
  rw [getD_map_range _ hi]

/-- C3 counterexample: the claim states that after the call every field of
every input body equals its value before the call, for both implementations.
The Cython implementation writes the updated bodies back into its input list
and returns that same list: for a single body with unit x-velocity and unit
timestep the post-call content of the input list differs from the pre-call
content (the x field has changed from 0 to 1). -/
theorem C3_counterexample_cython_mutates_input :
    nbody_step_update_cy (fun _ => (0 : ℚ)) [⟨0, 0, 1, 0, 1⟩] 1 1 1
        = [⟨1, 0, 1, 0, 1⟩] ∧
      ([⟨1, 0, 1, 0, 1⟩] : List (Body ℚ)) ≠ [⟨0, 0, 1, 0, 1⟩] := by
  constructor
  · have ha : accelOf (fun _ => (0 : ℚ)) 1 1 [⟨0, 0, 1, 0, 1⟩] 0
        = ((0 : ℚ), (0 : ℚ)) := rfl
    unfold nbody_step_update_cy
    have hr : List.range ([(⟨0, 0, 1, 0, 1⟩ : Body ℚ)] : List (Body ℚ)).length
        = [0] := rfl
    rw [hr, List.map_cons, List.map_nil]
    dsimp only
    rw [ha]
    norm_num
  · simp [Body.mk.injEq]

/-- C3 (amended): the C++ `nbody_step_update` takes its input by const
reference, copies it, and returns the fresh updated copy, so its input is
unmodified; the Cython `nbody_step_update_cy` returns the very list it was
given, whose dictionaries after the call hold the updated `x`, `y`, `vx`,
`vy` — i.e. the input is mutated into the same fully updated body set the
C++ version returns — while every body's mass is left unchanged. -/
theorem C3_nbody_frame_amended [Field α] (sqrt : α → α)
    (bodies : List (Body α)) (dt G softening : α) :
    nbody_step_update_cy sqrt bodies dt G softening
        = nbody_step_update sqrt bodies dt G softening ∧
      (nbody_step_update_cy sqrt bodies dt G softening).map Body.m
        = bodies.map Body.m :=
  ⟨nbody_cy_eq_swig sqrt bodies dt G softening,
   (nbody_cy_eq_swig sqrt bodies dt G softening) ▸
     nbody_step_mass sqrt bodies dt G softening⟩

/-- C5: with `softening > 0`, every divisor `dist_soft³` that the
acceleration loop divides by is strictly positive — the softened distance
`sqrt(dx² + dy² + ε)` is positive even for coinciding bodies — so the
division-by-zero case is unreachable. -/
theorem C5_nbody_softened_divisors_positive (bodies : List (Body ℝ))
    (softening : ℝ) (hs : 0 < softening) :
    ∀ d ∈ nbodyDivisors Real.sqrt softening bodies, 0 < d := by
  intro d hd
  simp only [nbodyDivisors, List.mem_flatMap, List.mem_filterMap] at hd
  obtain ⟨i, _, j, _, hj⟩ := hd
  by_cases hij : i = j
  · rw [if_pos hij] at hj
    exact absurd hj (by simp)
  · rw [if_neg hij] at hj
    have hdc := Option.some.inj hj
    rw [← hdc]
    unfold softDistCube
    have h1 : (0 : ℝ) ≤ ((bodies.getD j body0).x - (bodies.getD i body0).x)
        * ((bodies.getD j body0).x - (bodies.getD i body0).x) :=
      mul_self_nonneg _
    have h2 : (0 : ℝ) ≤ ((bodies.getD j body0).y - (bodies.getD i body0).y)
        * ((bodies.getD j body0).y - (bodies.getD i body0).y) :=
      mul_self_nonneg _
    have hsq : 0 < Real.sqrt
        (((bodies.getD j body0).x - (bodies.getD i body0).x)
            * ((bodies.getD j body0).x - (bodies.getD i body0).x)
          + ((bodies.getD j body0).y - (bodies.getD i body0).y)
            * ((bodies.getD j body0).y - (bodies.getD i body0).y)
          + softening) :=
      Real.sqrt_pos.mpr (by linarith)
    exact mul_pos (mul_pos hsq hsq) hsq

/-- Witness for C5: two coinciding unit-mass bodies with `softening = 1`. -/
theorem C5_nbody_softened_divisors_positive_witness :
    (0 : ℝ) < 1 ∧
      ∀ d ∈ nbodyDivisors Real.sqrt (1 : ℝ)
          [⟨0, 0, 0, 0, 1⟩, ⟨0, 0, 0, 0, 1⟩], 0 < d :=
  ⟨one_pos,
   C5_nbody_softened_divisors_positive [⟨0, 0, 0, 0, 1⟩, ⟨0, 0, 0, 0, 1⟩] 1
     one_pos⟩

/-- C6: the empty body set steps to the empty body set; for a single body the
acceleration is zero (the pair loop skips `j = i`), so the velocity is
unchanged and the position advances by exactly `vx·dt` and `vy·dt`. -/
theorem C6_nbody_single_body_stasis [Field α] (sqrt : α → α) (b : Body α)
    (dt G softening : α) :
    nbody_step_update sqrt ([] : List (Body α)) dt G softening = [] ∧
      accelOf sqrt G softening [b] 0 = (0, 0) ∧
      nbody_step_update sqrt [b] dt G softening
        = [{ x := b.x + b.vx * dt, y := b.y + b.vy * dt, vx := b.vx,
             vy := b.vy, m := b.m }] := by
  refine ⟨rfl, rfl, ?_⟩
  have ha : accelOf sqrt G softening [b] 0 = ((0 : α), (0 : α)) := rfl
  unfold nbody_step_update
  have hr : List.range ([b] : List (Body α)).length = [0] := rfl
  rw [hr, List.map_cons, List.map_nil]
  dsimp only
  rw [ha]
  simp

/-- C7: in the returned body set, body `i` satisfies `vx' = vx + ax·dt` and
`x' = x + vx'·dt` (likewise for the y components), where the acceleration is
the pairwise sum computed from the original, pre-step positions and masses:
velocity is updated before position and the position update uses the new
velocity. -/
theorem C7_nbody_velocity_before_position [Field α] (sqrt : α → α)
    (bodies : List (Body α)) (dt G softening : α) (i : Nat)
    (hi : i < bodies.length) :
    ((nbody_step_update sqrt bodies dt G softening).getD i body0).vx
        = (bodies.getD i body0).vx
          + (∑ j ∈ (Finset.range bodies.length).erase i,
              (accelPair sqrt G softening (bodies.getD i body0)
                (bodies.getD j body0)).1) * dt ∧
      ((nbody_step_update sqrt bodies dt G softening).getD i body0).vy
        = (bodies.getD i body0).vy
          + (∑ j ∈ (Finset.range bodies.length).erase i,
              (accelPair sqrt G softening (bodies.getD i body0)
                (bodies.getD j body0)).2) * dt ∧
      ((nbody_step_update sqrt bodies dt G softening).getD i body0).x
        = (bodies.getD i body0).x
          + ((nbody_step_update sqrt bodies dt G softening).getD i body0).vx
            * dt ∧
      ((nbody_step_update sqrt bodies dt G softening).getD i body0).y
        = (bodies.getD i body0).y
          + ((nbody_step_update sqrt bodies dt G softening).getD i body0).vy
            * dt := by
  rw [nbody_step_getD sqrt bodies dt G softening hi, accelOf_eq_sum]
  exact ⟨rfl, rfl, rfl, rfl⟩

/-- Witness for C7: a concrete two-body system over `ℚ` with a formal square
root (the theorem holds for any interpretation of `sqrt`). -/
theorem C7_nbody_velocity_before_position_witness :
    0 < ([⟨0, 0, 1, 0, 1⟩, ⟨3, 4, 0, 0, 2⟩] : List (Body ℚ)).length ∧
      (((nbody_step_update (fun q => q) [⟨0, 0, 1, 0, 1⟩, ⟨3, 4, 0, 0, 2⟩]
            1 1 1).getD 0 body0).vx
          = (([⟨0, 0, 1, 0, 1⟩, ⟨3, 4, 0, 0, 2⟩] : List (Body ℚ)).getD 0
              body0).vx
            + (∑ j ∈ (Finset.range
                ([⟨0, 0, 1, 0, 1⟩, ⟨3, 4, 0, 0, 2⟩] : List (Body ℚ)).length).erase 0,
                (accelPair (fun q => q) (1 : ℚ) 1
                  (([⟨0, 0, 1, 0, 1⟩, ⟨3, 4, 0, 0, 2⟩] : List (Body ℚ)).getD 0 body0)
                  (([⟨0, 0, 1, 0, 1⟩, ⟨3, 4, 0, 0, 2⟩] : List (Body ℚ)).getD j body0)).1)
              * 1 ∧
        ((nbody_step_update (fun q => q) [⟨0, 0, 1, 0, 1⟩, ⟨3, 4, 0, 0, 2⟩]
            1 1 1).getD 0 body0).vy
          = (([⟨0, 0, 1, 0, 1⟩, ⟨3, 4, 0, 0, 2⟩] : List (Body ℚ)).getD 0
              body0).vy
            + (∑ j ∈ (Finset.range
                ([⟨0, 0, 1, 0, 1⟩, ⟨3, 4, 0, 0, 2⟩] : List (Body ℚ)).length).erase 0,
                (accelPair (fun q => q) (1 : ℚ) 1
                  (([⟨0, 0, 1, 0, 1⟩, ⟨3, 4, 0, 0, 2⟩] : List (Body ℚ)).getD 0 body0)
                  (([⟨0, 0, 1, 0, 1⟩, ⟨3, 4, 0, 0, 2⟩] : List (Body ℚ)).getD j body0)).2)
              * 1 ∧
        ((nbody_step_update (fun q => q) [⟨0, 0, 1, 0, 1⟩, ⟨3, 4, 0, 0, 2⟩]
            1 1 1).getD 0 body0).x
          = (([⟨0, 0, 1, 0, 1⟩, ⟨3, 4, 0, 0, 2⟩] : List (Body ℚ)).getD 0
              body0).x
            + ((nbody_step_update (fun q => q) [⟨0, 0, 1, 0, 1⟩, ⟨3, 4, 0, 0, 2⟩]
                1 1 1).getD 0 body0).vx * 1 ∧
        ((nbody_step_update (fun q => q) [⟨0, 0, 1, 0, 1⟩, ⟨3, 4, 0, 0, 2⟩]
            1 1 1).getD 0 body0).y
          = (([⟨0, 0, 1, 0, 1⟩, ⟨3, 4, 0, 0, 2⟩] : List (Body ℚ)).getD 0
              body0).y
            + ((nbody_step_update (fun q => q) [⟨0, 0, 1, 0, 1⟩, ⟨3, 4, 0, 0, 2⟩]
                1 1 1).getD 0 body0).vy * 1) :=
  ⟨by decide,
   C7_nbody_velocity_before_position (fun q => q)
     [⟨0, 0, 1, 0, 1⟩, ⟨3, 4, 0, 0, 2⟩] 1 1 1 0 (by decide)⟩

/-- C9: for both implementations the step returns a body set of the same
length as the input, in the same order — body `i` of the output is exactly
the updated body `i` of the input: each of its fields `x`, `y`, `vx`, `vy`
is the source's update of input body `i`'s fields using the acceleration
computed for index `i` from the original set, and its mass `m` equals input
body `i`'s mass exactly (also stated for all indices at once as equality of
the mass columns). -/
theorem C9_nbody_length_order_mass [Field α] (sqrt : α → α)
    (bodies : List (Body α)) (dt G softening : α) (i : Nat)
    (hi : i < bodies.length) :
    (nbody_step_update sqrt bodies dt G softening).length = bodies.length ∧
      (nbody_step_update_cy sqrt bodies dt G softening).length
        = bodies.length ∧
      (nbody_step_update sqrt bodies dt G softening).map Body.m
        = bodies.map Body.m ∧
      (nbody_step_update_cy sqrt bodies dt G softening).map Body.m
        = bodies.map Body.m ∧
      (nbody_step_update sqrt bodies dt G softening).getD i body0
        = { x := (bodies.getD i body0).x
              + ((bodies.getD i body0).vx
                + (accelOf sqrt G softening bodies i).1 * dt) * dt,
            y := (bodies.getD i body0).y
              + ((bodies.getD i body0).vy
                + (accelOf sqrt G softening bodies i).2 * dt) * dt,
            vx := (bodies.getD i body0).vx
              + (accelOf sqrt G softening bodies i).1 * dt,
            vy := (bodies.getD i body0).vy
              + (accelOf sqrt G softening bodies i).2 * dt,
            m := (bodies.getD i body0).m } ∧
      (nbody_step_update_cy sqrt bodies dt G softening).getD i body0
        = { x := (bodies.getD i body0).x
              + ((bodies.getD i body0).vx
                + (accelOf sqrt G softening bodies i).1 * dt) * dt,
            y := (bodies.getD i body0).y
              + ((bodies.getD i body0).vy
                + (accelOf sqrt G softening bodies i).2 * dt) * dt,
            vx := (bodies.getD i body0).vx
              + (accelOf sqrt G softening bodies i).1 * dt,
            vy := (bodies.getD i body0).vy
              + (accelOf sqrt G softening bodies i).2 * dt,
            m := (bodies.getD i body0).m } := by
  refine ⟨nbody_step_length sqrt bodies dt G softening, ?_,
    nbody_step_mass sqrt bodies dt G softening, ?_,
    nbody_step_getD sqrt bodies dt G softening hi, ?_⟩
  · rw [nbody_cy_eq_swig]
    exact nbody_step_length sqrt bodies dt G softening
  · rw [nbody_cy_eq_swig]
    exact nbody_step_mass sqrt bodies dt G softening
  · rw [nbody_cy_eq_swig]
    exact nbody_step_getD sqrt bodies dt G softening hi

/-- Witness for C9 at a concrete one-body input over `ℚ`. -/
theorem C9_nbody_length_order_mass_witness :
    0 < ([⟨1, 2, 3, 4, 5⟩] : List (Body ℚ)).length ∧
      ((nbody_step_update (fun q : ℚ => q) [⟨1, 2, 3, 4, 5⟩] 1 1 1).length
          = ([⟨1, 2, 3, 4, 5⟩] : List (Body ℚ)).length ∧
        (nbody_step_update_cy (fun q : ℚ => q) [⟨1, 2, 3, 4, 5⟩] 1 1 1).length
          = ([⟨1, 2, 3, 4, 5⟩] : List (Body ℚ)).length ∧
        (nbody_step_update (fun q : ℚ => q) [⟨1, 2, 3, 4, 5⟩] 1 1 1).map Body.m
          = ([⟨1, 2, 3, 4, 5⟩] : List (Body ℚ)).map Body.m ∧
        (nbody_step_update_cy (fun q : ℚ => q) [⟨1, 2, 3, 4, 5⟩] 1 1 1).map Body.m
          = ([⟨1, 2, 3, 4, 5⟩] : List (Body ℚ)).map Body.m ∧
        (nbody_step_update (fun q : ℚ => q) [⟨1, 2, 3, 4, 5⟩] 1 1 1).getD 0 body0
          = { x := (([⟨1, 2, 3, 4, 5⟩] : List (Body ℚ)).getD 0 body0).x
                + ((([⟨1, 2, 3, 4, 5⟩] : List (Body ℚ)).getD 0 body0).vx
                  + (accelOf (fun q : ℚ => q) (1 : ℚ) 1 [⟨1, 2, 3, 4, 5⟩] 0).1 * 1)
                  * 1,
              y := (([⟨1, 2, 3, 4, 5⟩] : List (Body ℚ)).getD 0 body0).y
                + ((([⟨1, 2, 3, 4, 5⟩] : List (Body ℚ)).getD 0 body0).vy
                  + (accelOf (fun q : ℚ => q) (1 : ℚ) 1 [⟨1, 2, 3, 4, 5⟩] 0).2 * 1)
                  * 1,
              vx := (([⟨1, 2, 3, 4, 5⟩] : List (Body ℚ)).getD 0 body0).vx
                + (accelOf (fun q : ℚ => q) (1 : ℚ) 1 [⟨1, 2, 3, 4, 5⟩] 0).1 * 1,
              vy := (([⟨1, 2, 3, 4, 5⟩] : List (Body ℚ)).getD 0 body0).vy
                + (accelOf (fun q : ℚ => q) (1 : ℚ) 1 [⟨1, 2, 3, 4, 5⟩] 0).2 * 1,
              m := (([⟨1, 2, 3, 4, 5⟩] : List (Body ℚ)).getD 0 body0).m } ∧
        (nbody_step_update_cy (fun q : ℚ => q) [⟨1, 2, 3, 4, 5⟩] 1 1 1).getD 0 body0
          = { x := (([⟨1, 2, 3, 4, 5⟩] : List (Body ℚ)).getD 0 body0).x
                + ((([⟨1, 2, 3, 4, 5⟩] : List (Body ℚ)).getD 0 body0).vx
                  + (accelOf (fun q : ℚ => q) (1 : ℚ) 1 [⟨1, 2, 3, 4, 5⟩] 0).1 * 1)
                  * 1,
              y := (([⟨1, 2, 3, 4, 5⟩] : List (Body ℚ)).getD 0 body0).y
                + ((([⟨1, 2, 3, 4, 5⟩] : List (Body ℚ)).getD 0 body0).vy
                  + (accelOf (fun q : ℚ => q) (1 : ℚ) 1 [⟨1, 2, 3, 4, 5⟩] 0).2 * 1)
                  * 1,
              vx := (([⟨1, 2, 3, 4, 5⟩] : List (Body ℚ)).getD 0 body0).vx
                + (accelOf (fun q : ℚ => q) (1 : ℚ) 1 [⟨1, 2, 3, 4, 5⟩] 0).1 * 1,
              vy := (([⟨1, 2, 3, 4, 5⟩] : List (Body ℚ)).getD 0 body0).vy
                + (accelOf (fun q : ℚ => q) (1 : ℚ) 1 [⟨1, 2, 3, 4, 5⟩] 0).2 * 1,
              m := (([⟨1, 2, 3, 4, 5⟩] : List (Body ℚ)).getD 0 body0).m }) :=
  ⟨by decide,
   C9_nbody_length_order_mass (fun q : ℚ => q) [⟨1, 2, 3, 4, 5⟩] 1 1 1 0
     (by decide)⟩

/-! ### Random body initialisation -/

/-- Model of `initialize_bodies` (nbody_swig.cpp, lines 7-30).  The C library
`rand()` is modelled by a stream `r : Nat → Nat` of draws, each bounded by
`RMAX` (the implementation-defined `RAND_MAX`), so that
`(double)rand() / RAND_MAX` becomes the exact rational `r t / RMAX` — note
`rand()` can return `RAND_MAX` itself, making the quotient exactly `1`.
Body `i` consumes draws `5*i, …, 5*i+4` in the source's call order
`x, y, vx, vy, m`. -/
def initialize_bodies (r : Nat → Nat) (RMAX : Nat) (N : Nat)
    (box_size max_mass : ℚ) : List (Body ℚ) :=
  (List.range N).map (fun i =>
    { x := ((r (5 * i) : ℚ) / (RMAX : ℚ)) * box_size,
      y := ((r (5 * i + 1) : ℚ) / (RMAX : ℚ)) * box_size,
      vx := ((r (5 * i + 2) : ℚ) / (RMAX : ℚ)) * 2 - 1,
      vy := ((r (5 * i + 3) : ℚ) / (RMAX : ℚ)) * 2 - 1,
      m := ((r (5 * i + 4) : ℚ) / (RMAX : ℚ)) * (max_mass - 1/10) + 1/10 })

/-- Model of `initialize_bodies_cy` (nbody_cy.pyx, lines 20-33).  Python's
`random.uniform(a, b)` computes `a + (b - a) * random.random()` with
`random.random() ∈ [0, 1)`; the unit draws are modelled by a stream
`u : Nat → ℚ`.  Body `i` consumes draws `5*i, …, 5*i+4` in the source's
call order `x, y, vx, vy, m`. -/
def initialize_bodies_cy (u : Nat → ℚ) (N : Nat) (box_size max_mass : ℚ) :
    List (Body ℚ) :=
  (List.range N).map (fun i =>
    { x := 0 + (box_size - 0) * u (5 * i),
      y := 0 + (box_size - 0) * u (5 * i + 1),
      vx := -1 + (1 - -1) * u (5 * i + 2),
      vy := -1 + (1 - -1) * u (5 * i + 3),
      m := 1/10 + (max_mass - 1/10) * u (5 * i + 4) })

/-- C10 counterexample: the claim asserts positions lie in the half-open
square `[0, box_size)²` for every possible value sequence of the random
source.  The C++ generator computes `x = (rand() / RAND_MAX) * box_size`,
and `rand()` can return `RAND_MAX`; with the constant stream returning
`RAND_MAX = 32767` and `box_size = 1`, the generated body has `x = 1 =
box_size`, which is not `< box_size`. -/
theorem C10_counterexample_position_attains_box_size :
    initialize_bodies (fun _ => 32767) 32767 1 1 1 = [⟨1, 1, 1, 1, 1⟩] ∧
      ¬((1 : ℚ) < 1) := by
  constructor
  · unfold initialize_bodies
    have hr : List.range 1 = [0] := rfl
    rw [hr, List.map_cons, List.map_nil]
    norm_num
  · exact lt_irrefl 1

/-- C10 (amended): both generators return exactly `N` bodies; velocities lie
in `[-1, 1]²` and masses in `[0.1, max_mass]` in both; positions lie in the
closed square `[0, box_size]²` — the C++ generator attains `box_size` when
`rand()` returns `RAND_MAX`, while the Cython generator stays strictly below
`box_size`. -/
theorem C10_initialize_bodies_ranges (r : Nat → Nat) (RMAX N : Nat)
    (u : Nat → ℚ) (box_size max_mass : ℚ)
    (hr : ∀ t, r t ≤ RMAX) (hR : 1 ≤ RMAX)
    (hu : ∀ t, 0 ≤ u t ∧ u t < 1)
    (hbox : 0 < box_size) (hmass : 1/10 ≤ max_mass) :
    (initialize_bodies r RMAX N box_size max_mass).length = N ∧
      (initialize_bodies_cy u N box_size max_mass).length = N ∧
      (∀ b ∈ initialize_bodies r RMAX N box_size max_mass,
        (0 ≤ b.x ∧ b.x ≤ box_size) ∧ (0 ≤ b.y ∧ b.y ≤ box_size) ∧
        (-1 ≤ b.vx ∧ b.vx ≤ 1) ∧ (-1 ≤ b.vy ∧ b.vy ≤ 1) ∧
        (1/10 ≤ b.m ∧ b.m ≤ max_mass)) ∧
      (∀ b ∈ initialize_bodies_cy u N box_size max_mass,
        (0 ≤ b.x ∧ b.x < box_size) ∧ (0 ≤ b.y ∧ b.y < box_size) ∧
        (-1 ≤ b.vx ∧ b.vx ≤ 1) ∧ (-1 ≤ b.vy ∧ b.vy ≤ 1) ∧
        (1/10 ≤ b.m ∧ b.m ≤ max_mass)) := by
  have hRq : (0 : ℚ) < (RMAX : ℚ) := by
    exact_mod_cast Nat.lt_of_lt_of_le Nat.zero_lt_one hR
  have hunit : ∀ t, 0 ≤ (r t : ℚ) / (RMAX : ℚ) ∧ (r t : ℚ) / (RMAX : ℚ) ≤ 1 := by
    intro t
    constructor
    · exact div_nonneg (by exact_mod_cast Nat.zero_le (r t)) (le_of_lt hRq)
    · rw [div_le_one hRq]
      exact_mod_cast hr t
  refine ⟨by simp [initialize_bodies], by simp [initialize_bodies_cy], ?_, ?_⟩
  · intro b hb
    simp only [initialize_bodies, List.mem_map, List.mem_range] at hb
    obtain ⟨i, _, rfl⟩ := hb
    obtain ⟨hx0, hx1⟩ := hunit (5 * i)
    obtain ⟨hy0, hy1⟩ := hunit (5 * i + 1)
    obtain ⟨hvx0, hvx1⟩ := hunit (5 * i + 2)
    obtain ⟨hvy0, hvy1⟩ := hunit (5 * i + 3)
    obtain ⟨hm0, hm1⟩ := hunit (5 * i + 4)
    have hd : (0 : ℚ) ≤ max_mass - 1/10 := by linarith
    have hxb := mul_le_mul_of_nonneg_right hx1 (le_of_lt hbox)
    have hyb := mul_le_mul_of_nonneg_right hy1 (le_of_lt hbox)
    have hmb := mul_le_mul_of_nonneg_right hm1 hd
    have hmn := mul_nonneg hm0 hd
    refine ⟨⟨?_, ?_⟩, ⟨?_, ?_⟩, ⟨?_, ?_⟩, ⟨?_, ?_⟩, ⟨?_, ?_⟩⟩
    · exact mul_nonneg hx0 (le_of_lt hbox)
    · dsimp only; linarith
    · exact mul_nonneg hy0 (le_of_lt hbox)
    · dsimp only; linarith
    · dsimp only; linarith
    · dsimp only; linarith
    · dsimp only; linarith
    · dsimp only; linarith
    · dsimp only; linarith
    · dsimp only; linarith
  · intro b hb
    simp only [initialize_bodies_cy, List.mem_map, List.mem_range] at hb
    obtain ⟨i, _, rfl⟩ := hb
    obtain ⟨hx0, hx1⟩ := hu (5 * i)
    obtain ⟨hy0, hy1⟩ := hu (5 * i + 1)
    obtain ⟨hvx0, hvx1⟩ := hu (5 * i + 2)
    obtain ⟨hvy0, hvy1⟩ := hu (5 * i + 3)
    obtain ⟨hm0, hm1⟩ := hu (5 * i + 4)
    have hd : (0 : ℚ) ≤ max_mass - 1/10 := by linarith
    have hxb := mul_lt_mul_of_pos_left hx1 hbox
    have hyb := mul_lt_mul_of_pos_left hy1 hbox
    have hxn := mul_nonneg (le_of_lt hbox) hx0
    have hyn := mul_nonneg (le_of_lt hbox) hy0
    have hmb := mul_le_mul_of_nonneg_left (le_of_lt hm1) hd
    have hmn := mul_nonneg hd hm0
    refine ⟨⟨?_, ?_⟩, ⟨?_, ?_⟩, ⟨?_, ?_⟩, ⟨?_, ?_⟩, ⟨?_, ?_⟩⟩
    · dsimp only; linarith
    · dsimp only; linarith
    · dsimp only; linarith
    · dsimp only; linarith
    · dsimp only; linarith
    · dsimp only; linarith
    · dsimp only; linarith
    · dsimp only; linarith
    · dsimp only; linarith
    · dsimp only; linarith

/-- Witness for C10 at concrete parameters and streams. -/
theorem C10_initialize_bodies_ranges_witness :
    (∀ t : Nat, (fun _ : Nat => 0) t ≤ 1) ∧ 1 ≤ 1 ∧
      (∀ t : Nat, 0 ≤ (fun _ : Nat => (0 : ℚ)) t ∧ (fun _ : Nat => (0 : ℚ)) t < 1) ∧
      (0 : ℚ) < 1 ∧ (1 : ℚ)/10 ≤ 1 ∧
      ((initialize_bodies (fun _ => 0) 1 1 1 1).length = 1 ∧
        (initialize_bodies_cy (fun _ => (0 : ℚ)) 1 1 1).length = 1 ∧
        (∀ b ∈ initialize_bodies (fun _ => 0) 1 1 1 1,
          (0 ≤ b.x ∧ b.x ≤ 1) ∧ (0 ≤ b.y ∧ b.y ≤ 1) ∧
          (-1 ≤ b.vx ∧ b.vx ≤ 1) ∧ (-1 ≤ b.vy ∧ b.vy ≤ 1) ∧
          (1/10 ≤ b.m ∧ b.m ≤ 1)) ∧
        (∀ b ∈ initialize_bodies_cy (fun _ => (0 : ℚ)) 1 1 1,
          (0 ≤ b.x ∧ b.x < 1) ∧ (0 ≤ b.y ∧ b.y < 1) ∧
          (-1 ≤ b.vx ∧ b.vx ≤ 1) ∧ (-1 ≤ b.vy ∧ b.vy ≤ 1) ∧
          (1/10 ≤ b.m ∧ b.m ≤ 1))) :=
  ⟨fun _ => Nat.zero_le 1, le_refl 1,
   fun _ => ⟨le_refl 0, by norm_num⟩, by norm_num, by norm_num,
   C10_initialize_bodies_ranges (fun _ => 0) 1 1 (fun _ => (0 : ℚ)) 1 1
     (fun _ => Nat.zero_le 1) (le_refl 1)
     (fun _ => ⟨le_refl 0, by norm_num⟩) (by norm_num) (by norm_num)⟩

/-! ## Fourier transforms (fft_swig.cpp / fft_cy.pyx)

Sequence elements live in an arbitrary ring `α`, modelling
`std::complex<double>` / `complex128`.  Every twiddle factor the code builds
is `(cos θ, sin θ)` for an angle `θ` that is a rational multiple of `2π`;
since the real cosine and sine have no computable counterpart, the twiddle
constructor is a parameter `cis : ℚ → α`, where `cis q` models
`e^(2πi·q) = (cos 2πq, sin 2πq)`; the code's angle `-2π·k·n/N` is
`cis (-(k·n)/N)`.  No claim settled here depends on the values of `cis`. -/

/-- Model of `dft_naive` (fft_swig.cpp, lines 9-24):
`X[k] = Σₙ x[n] · w` with `w = cis(-(k·n)/N)`, the inner sum accumulated
over `n = 0, …, N-1`. -/
def dft_naive [Ring α] (cis : ℚ → α) (x : List α) : List α :=
  (List.range x.length).map (fun k =>
    (List.range x.length).foldl
      (fun s n => s + x.getD n 0 * cis (-((k * n : Nat) : ℚ) / (x.length : ℚ)))
      0)

/-- The even-indexed elements `x[0], x[2], …`: the `even` vector of
`fft_cooley_tukey`'s divide loop, equally the Cython slice `x[0::2]`. -/
def evens : List α → List α
  | [] => []
  | [a] => [a]
  | a :: _ :: t => a :: evens t

/-- The odd-indexed elements `x[1], x[3], …` (the `odd` vector / `x[1::2]`). -/
def odds : List α → List α
  | [] => []
  | [_] => []
  | _ :: b :: t => b :: odds t

theorem evens_length : ∀ (l : List α), (evens l).length = (l.length + 1) / 2
  | [] => by simp [evens]
  | [_] => by simp [evens]
  | _ :: _ :: t => by
    simp only [evens, List.length_cons]
    rw [evens_length t]
    omega

theorem odds_length : ∀ (l : List α), (odds l).length = l.length / 2
  | [] => by simp [odds]
  | [_] => by simp [odds]
  | _ :: _ :: t => by
    simp only [odds, List.length_cons]
    rw [odds_length t]
    omega

/-- Model of `fft_cooley_tukey` (fft_swig.cpp, lines 26-66): base case
`N ≤ 1` returns the input unchanged; the power-of-two check is the bit trick
`N & (N - 1)` — when it is nonzero the function returns `dft_naive` of the
same input (the fallback); otherwise it recurses on the even- and odd-indexed
halves and combines them, `X[k] = even[k] + t`, `X[k + N/2] = even[k] - t`
with `t = cis(-k/N) * odd[k]`. -/
def fft_cooley_tukey [Ring α] (cis : ℚ → α) (x : List α) : List α :=
  if _h1 : x.length ≤ 1 then x
  else if _h2 : x.length &&& (x.length - 1) ≠ 0 then dft_naive cis x
  else
    let even_fft := fft_cooley_tukey cis (evens x)
    let odd_fft := fft_cooley_tukey cis (odds x)
    let t := fun k : Nat =>
      cis (-(k : ℚ) / (x.length : ℚ)) * odd_fft.getD k 0
    (List.range (x.length / 2)).map (fun k => even_fft.getD k 0 + t k)
      ++ (List.range (x.length / 2)).map (fun k => even_fft.getD k 0 - t k)
termination_by x.length
decreasing_by
  · rw [evens_length]; omega
  · rw [odds_length]; omega

/-- The carry loop of the bit-reversal permutation:
`k = N >> 1; while (k <= j) { j -= k; k >>= 1; }; j += k`.  The extra guard
`k ≠ 0` makes the definition total; the C++ loop reaches `k = 0` only for a
`j` whose reversal is all ones, which cannot occur for `i < N - 1`. -/
def bitrevCarry (j k : Nat) : Nat :=
  if _h : k ≤ j ∧ k ≠ 0 then bitrevCarry (j - k) (k / 2) else j + k
termination_by k
decreasing_by omega

/-- `std::swap(X[i], X[j])` on a list, reading both old values first. -/
def listSwap (X : List α) (i j : Nat) (d : α) : List α :=
  (X.set i (X.getD j d)).set j (X.getD i d)

/-- The bit-reversal permutation loop of `fft_iterative` /
`fft_iterative_cy`: `j` starts at `0`; for `i = 0, …, N-2`, `X[i]` and `X[j]`
are swapped when `i < j`, then `j` advances by the carry rule with
`k = N >> 1`. -/
def bitReversal [Ring α] (x : List α) : List α :=
  ((List.range (x.length - 1)).foldl
    (fun (p : List α × Nat) i =>
      (if i < p.2 then listSwap p.1 i p.2 0 else p.1,
       bitrevCarry p.2 (x.length >>> 1)))
    (x, 0)).1

/-- The butterfly sizes `2, 4, 8, …, ≤ N` taken by
`for (size = 2; size <= N; size <<= 1)`.  The guard `2 ≤ s` makes the
definition total; the initial call has `s = 2`. -/
def sizesFrom (N s : Nat) : List Nat :=
  if _h : 2 ≤ s ∧ s ≤ N then s :: sizesFrom N (2 * s) else []
termination_by N + 1 - s
decreasing_by omega

/-- One butterfly pass of `fft_iterative` / `fft_iterative_cy` at a given
`size`: `wm = cis(-1/size)`; for each block start `i = 0, size, 2·size, … < N`
the twiddle `w` starts at `1`, and for `j = 0, …, half-1`:
`idx = i + j; t = w·X[idx+half]; X[idx+half] = X[idx] - t;
X[idx] = X[idx] + t; w *= wm`. -/
def butterflyPass [Ring α] (cis : ℚ → α) (N size : Nat) (X : List α) :
    List α :=
  let half := size >>> 1
  let wm := cis (-1 / (size : ℚ))
  ((List.range N).filter (fun i => i % size == 0)).foldl
    (fun X0 i =>
      ((List.range half).foldl
        (fun (p : List α × α) j =>
          let idx := i + j
          let t := p.2 * p.1.getD (idx + half) 0
          let X1 := p.1.set (idx + half) (p.1.getD idx 0 - t)
          let X2 := X1.set idx (X1.getD idx 0 + t)
          (X2, p.2 * wm))
        (X0, 1)).1)
    X

/-- Model of `fft_iterative` (fft_swig.cpp, lines 68-113): the power-of-two
check `N & (N - 1)` with fallback to `dft_naive` on failure; otherwise the
bit-reversal permutation of a copy of the input followed by butterfly passes
of doubling sizes. -/
def fft_iterative [Ring α] (cis : ℚ → α) (x : List α) : List α :=
  if x.length &&& (x.length - 1) ≠ 0 then dft_naive cis x
  else
    (sizesFrom x.length 2).foldl
      (fun X size => butterflyPass cis x.length size X) (bitReversal x)

/-- Model of `fft_cooley_tukey_cy` (fft_cy.pyx, lines 358-…): the same
recursion as the C++ version, except that a non-power-of-two length raises
`ValueError("Input size must be a power of 2")` instead of falling back —
modelled by `Except.error` carrying the source's message.  The combine step
first materialises `T[k] = cis(-k/N) * odd[k]` and then builds both halves
from `T`. -/
def fft_cooley_tukey_cy [Ring α] (cis : ℚ → α) (x : List α) :
    Except String (List α) :=
  if _h1 : x.length ≤ 1 then .ok x
  else if _h2 : x.length &&& (x.length - 1) ≠ 0 then
    .error "Input size must be a power of 2"
  else do
    let even ← fft_cooley_tukey_cy cis (evens x)
    let odd ← fft_cooley_tukey_cy cis (odds x)
    let T := (List.range (x.length / 2)).map
      (fun k : Nat => cis (-(k : ℚ) / (x.length : ℚ)) * odd.getD k 0)
    .ok ((List.range (x.length / 2)).map (fun k => even.getD k 0 + T.getD k 0)
      ++ (List.range (x.length / 2)).map (fun k => even.getD k 0 - T.getD k 0))
termination_by x.length
decreasing_by
  · rw [evens_length]; omega
  · rw [odds_length]; omega

/-- Model of `fft_iterative_cy` (fft_cy.pyx): the power-of-two check comes
first and raises `ValueError` on failure; otherwise the same bit-reversal and
butterfly loops as the C++ version run on a copy of the input. -/
def fft_iterative_cy [Ring α] (cis : ℚ → α) (x : List α) :
    Except String (List α) :=
  if x.length &&& (x.length - 1) ≠ 0 then
    .error "Input size must be a power of 2"
  else
    .ok ((sizesFrom x.length 2).foldl
      (fun X size => butterflyPass cis x.length size X) (bitReversal x))

/-! ### The power-of-two bit trick -/

theorem exists_testBit_of_ne_zero {m : Nat} (hm : m ≠ 0) :
    ∃ i, m.testBit i = true := by
  by_contra h
  push_neg at h
  exact hm (Nat.eq_of_testBit_eq (fun i => by
    rw [Nat.zero_testBit]
    exact Bool.eq_false_iff.mpr (h i)))

/-- The check `N & (N - 1) == 0` recognises exactly the powers of two among
the positive naturals. -/
theorem pow2_of_land_pred : ∀ N : Nat, 1 ≤ N → N &&& (N - 1) = 0 →
    ∃ k, N = 2 ^ k := by
  intro N
  induction N using Nat.strong_induction_on with
  | _ N ih =>
    intro h1 h
    rcases Nat.lt_or_ge N 2 with hN | hN
    · exact ⟨0, by omega⟩
    · rcases Nat.even_or_odd N with ⟨m, hm⟩ | ⟨m, hm⟩
      · have hm' : N = 2 * m := by omega
        have hmge : 1 ≤ m := by omega
        have hrec : m &&& (m - 1) = 0 := by
          refine Nat.eq_of_testBit_eq (fun i => ?_)
          rw [Nat.zero_testBit, Nat.testBit_land]
          have hb := congrArg (fun n => n.testBit (i + 1)) h
          simp only [Nat.testBit_land, Nat.zero_testBit] at hb
          rw [Nat.testBit_add_one, Nat.testBit_add_one] at hb
          have e1 : N / 2 = m := by omega
          have e2 : (N - 1) / 2 = m - 1 := by omega
          rw [e1, e2] at hb
          exact hb
        obtain ⟨k, hk⟩ := ih m (by omega) hmge hrec
        exact ⟨k + 1, by rw [hm', hk, Nat.pow_succ, Nat.mul_comm]⟩
      · have hmge : 1 ≤ m := by omega
        obtain ⟨i, hib⟩ := exists_testBit_of_ne_zero (by omega : m ≠ 0)
        have hb := congrArg (fun n => n.testBit (i + 1)) h
        simp only [Nat.testBit_land, Nat.zero_testBit] at hb
        rw [Nat.testBit_add_one, Nat.testBit_add_one] at hb
        have e1 : N / 2 = m := by omega
        have e2 : (N - 1) / 2 = m := by omega
        rw [e1, e2, hib] at hb
        simp at hb

theorem land_pred_ne_zero {N : Nat} (h2 : 2 ≤ N)
    (h : ∀ k : Nat, N ≠ 2 ^ k) : N &&& (N - 1) ≠ 0 := fun hz =>
  (pow2_of_land_pred N (by omega) hz).elim (fun k hk => h k hk)

theorem three_not_pow2 : ∀ k : Nat, (3 : Nat) ≠ 2 ^ k := by
  intro k
  match k with
  | 0 => decide
  | 1 => decide
  | (n + 2) =>
    have h4 : 4 ≤ 2 ^ (n + 2) :=
      calc (4 : Nat) = 2 ^ 2 := rfl
      _ ≤ 2 ^ (n + 2) := Nat.pow_le_pow_right (by omega) (by omega)
    omega

/-- C2 counterexample: the claim states that the fast variants in each
implementation do not raise an error on a non-power-of-two length and return
`dft_naive` of the input; the Cython recursive variant instead raises
`ValueError("Input size must be a power of 2")` on a length-3 input
(modelled by `Except.error` carrying the source's message; `cis` is
irrelevant since the error path precedes any arithmetic). -/
theorem C2_counterexample_cython_raises :
    (∀ k : Nat, ([1, 2, 3] : List ℚ).length ≠ 2 ^ k) ∧
      fft_cooley_tukey_cy (fun _ => (0 : ℚ)) [1, 2, 3]
          = .error "Input size must be a power of 2" ∧
      fft_iterative_cy (fun _ => (0 : ℚ)) [1, 2, 3]
          = .error "Input size must be a power of 2" := by
  refine ⟨three_not_pow2, ?_, ?_⟩
  · rw [fft_cooley_tukey_cy]
    rw [dif_neg (by norm_num), dif_pos (by decide)]
  · unfold fft_iterative_cy
    rw [if_pos (by decide)]

/-- C2 (corrected): for every sequence whose length is not a power of two,
the C++ fast variants raise no error and return exactly `dft_naive` of the
input (for length 0 the check `0 & -1 == 0` passes, the loops are empty and
the result is again the empty sequence, equal to `dft_naive []`); the Cython
fast variants instead raise `ValueError("Input size must be a power of 2")`
for every such nonempty input. -/
theorem C2_fft_fallback_amended [Ring α] (cis : ℚ → α) (x : List α)
    (hnp : ∀ k : Nat, x.length ≠ 2 ^ k) :
    fft_cooley_tukey cis x = dft_naive cis x ∧
      fft_iterative cis x = dft_naive cis x ∧
      (x ≠ [] →
        fft_cooley_tukey_cy cis x = .error "Input size must be a power of 2" ∧
          fft_iterative_cy cis x = .error "Input size must be a power of 2") := by
  rcases Nat.lt_or_ge x.length 2 with hN | hN
  · have h0 : x.length = 0 := by
      rcases Nat.lt_or_ge x.length 1 with h | h
      · omega
      · exact absurd (by omega : x.length = 1)
          (fun he => hnp 0 (by rw [he]; rfl))
    have hx : x = [] := List.eq_nil_of_length_eq_zero h0
    subst hx
    refine ⟨?_, ?_, fun hne => absurd rfl hne⟩
    · rw [fft_cooley_tukey, dif_pos (by simp)]
      rfl
    show fft_iterative cis [] = dft_naive cis []
    unfold fft_iterative
    rw [if_neg (by simp)]
    rw [sizesFrom, dif_neg (by omega)]
    rfl
  · have hcheck : x.length &&& (x.length - 1) ≠ 0 := land_pred_ne_zero hN hnp
    refine ⟨?_, ?_, fun _ => ⟨?_, ?_⟩⟩
    · rw [fft_cooley_tukey]
      rw [dif_neg (by omega : ¬x.length ≤ 1), dif_pos hcheck]
    · unfold fft_iterative
      rw [if_pos hcheck]
    · rw [fft_cooley_tukey_cy]
      rw [dif_neg (by omega : ¬x.length ≤ 1), dif_pos hcheck]
    · unfold fft_iterative_cy
      rw [if_pos hcheck]

/-- Witness for C2 at the concrete length-3 input. -/
theorem C2_fft_fallback_amended_witness :
    (∀ k : Nat, ([(1 : ℚ), 2, 3] : List ℚ).length ≠ 2 ^ k) ∧
      (fft_cooley_tukey (fun _ => (0 : ℚ)) [1, 2, 3]
          = dft_naive (fun _ => (0 : ℚ)) [1, 2, 3] ∧
        fft_iterative (fun _ => (0 : ℚ)) [1, 2, 3]
          = dft_naive (fun _ => (0 : ℚ)) [1, 2, 3] ∧
        (([(1 : ℚ), 2, 3] : List ℚ) ≠ [] →
          fft_cooley_tukey_cy (fun _ => (0 : ℚ)) [1, 2, 3]
              = .error "Input size must be a power of 2" ∧
            fft_iterative_cy (fun _ => (0 : ℚ)) [1, 2, 3]
              = .error "Input size must be a power of 2")) :=
  ⟨three_not_pow2,
   C2_fft_fallback_amended (fun _ => (0 : ℚ)) [1, 2, 3] three_not_pow2⟩

end GreenLab
